import Mathlib

/-!
# Verification of the ChEMBL source loader (`src/chembl.rs`)

Shallow embedding of the Rust module `chembl.rs` of `chiral-db-sources`.

* A file is modelled as the list of its lines (`List String`); the buffered
  reader and its I/O are abstracted away.
* `HashMap<String, EntryChembl>` is modelled as an association list
  `List (String × EntryChembl)`; `HashMap` iteration order is arbitrary but
  consistent between `keys()` and `values()` on an unmodified map, which the
  single list order captures.
* Rust panics (`unwrap`, out-of-bounds indexing, `gen_range` on an empty
  range) are modelled by `Option`/`LoadResult.panic` outcomes: `none` or
  `panic` means the process aborts.
* The thread-local random generator is modelled by a function
  `rng : Nat → Nat` giving the raw draw of each iteration; `gen_range(0..n)`
  reduces a raw draw modulo `n`, so every value of `[0, n)` is reachable and
  no other value is.
* Machine integers are `Nat` with an explicit reduction modulo `2^64` where
  overflow matters: the `usize` product `size * 2` of the mark condition of
  `choices` wraps there in a release build (a debug build aborts instead, so
  in neither build is the unbounded product the value compared).
-/

/-- One record of the ChEMBL table (`struct EntryChembl`): four string
fields taken from one line of the dump. -/
structure EntryChembl where
  chembl_id : String
  smiles : String
  inchi : String
  inchi_key : String
deriving DecidableEq

/-- `EntryChembl::new(v)`: reads `v[0]`, `v[1]`, `v[2]`, `v[3]`; the Rust
indexing panics when the vector is shorter, which `none` models. -/
def EntryChembl.new (v : List String) : Option EntryChembl := do
  let chembl_id ← v[0]?
  let smiles ← v[1]?
  let inchi ← v[2]?
  let inchi_key ← v[3]?
  pure { chembl_id := chembl_id, smiles := smiles, inchi := inchi, inchi_key := inchi_key }

/-- Rust `str::split('\t')` on the character list of a line: splits at every
tab, keeping empty fields (so the result is never empty and has one more
element than there are tabs). -/
def splitTabChars : List Char → List (List Char)
  | [] => [[]]
  | c :: rest =>
    if c = '\t' then [] :: splitTabChars rest
    else
      match splitTabChars rest with
      | [] => [[c]]
      | f :: fs => (c :: f) :: fs

/-- `line.split('\t').collect::<Vec<&str>>()` as a list of strings. -/
def splitTab (line : String) : List String :=
  (splitTabChars line.data).map String.mk

/-- The in-memory table (`type DataChembl = HashMap<String, EntryChembl>`). -/
def DataChembl := List (String × EntryChembl)

/-- `HashMap::insert` on the association-list model: replace the value of an
existing key in place, otherwise append the new binding. -/
def assocInsert : List (String × EntryChembl) → String → EntryChembl → List (String × EntryChembl)
  | [], k, v => [(k, v)]
  | (k', v') :: rest, k, v =>
    if k' = k then (k', v) :: rest else (k', v') :: assocInsert rest k v

/-- `HashMap::get` on the association-list model. -/
def assocGet (m : List (String × EntryChembl)) (k : String) : Option EntryChembl :=
  (m.find? (fun p => p.1 == k)).map Prod.snd

/-- `HashMap::remove` on the association-list model. -/
def assocRemove (m : List (String × EntryChembl)) (k : String) : List (String × EntryChembl) :=
  m.filter (fun p => !(p.1 == k))

/-- The store (`struct SourceChembl { data: DataChembl }`). -/
structure SourceChembl where
  data : List (String × EntryChembl)
deriving DecidableEq

/-- Outcome of `SourceChembl::load`: the Rust function either fills the map
and returns, or panics (`File::open(..).unwrap()`, `l.unwrap()`,
out-of-bounds indexing in `EntryChembl::new`); `panic` models that
uncontrolled process abort — no error value is ever returned to the caller. -/
inductive LoadResult where
  | ok (sc : SourceChembl) : LoadResult
  | panic : LoadResult
deriving DecidableEq

/-- The body of the closure in `load`: split the line on tabs and build
`(String::from(v[0]), EntryChembl::new(v))`; `none` models the indexing
panic on a line with fewer than four fields. -/
def parseFields (v : List String) : Option (String × EntryChembl) := do
  let key ← v[0]?
  let e ← EntryChembl.new v
  pure (key, e)

/-- One line of the file through the closure of `load`. -/
def parseLine (line : String) : Option (String × EntryChembl) :=
  parseFields (splitTab line)

/-- `reader.lines().map(...).collect::<Vec<_>>()`: all lines through the
closure, stopping with a panic (`none`) at the first malformed line. -/
def parseLines : List String → Option (List (String × EntryChembl))
  | [] => some []
  | line :: rest => do
    let p ← parseLine line
    let ps ← parseLines rest
    pure (p :: ps)

/-- The step of the final `collect` of `load` into the map: one sequential
`HashMap::insert` of a parsed `(id, record)` pair. -/
def insertStep (m : List (String × EntryChembl)) (p : String × EntryChembl) :
    List (String × EntryChembl) :=
  assocInsert m p.1 p.2

/-- `SourceChembl::sanitize`: `self.data.remove("chembl_id")`. -/
def SourceChembl.sanitize (sc : SourceChembl) : SourceChembl :=
  ⟨assocRemove sc.data "chembl_id"⟩

/-- `SourceChembl::load`: clears `data`, reads the file line by line,
re-collects the parsed pairs into the map (sequential inserts — a later
binding with the same key overwrites the earlier one), then sanitizes.
The prior contents of the store do not influence the result, exactly as in
the Rust code (`self.data.clear()` followed by a full reassignment). -/
def SourceChembl.load (sc : SourceChembl) (lines : List String) : LoadResult :=
  match parseLines lines with
  | none => LoadResult.panic
  | some pairs =>
    LoadResult.ok (SourceChembl.sanitize ⟨pairs.foldl insertStep []⟩)

/-- `SourceChembl::get`. -/
def SourceChembl.get (sc : SourceChembl) (id : String) : Option EntryChembl :=
  assocGet sc.data id

/-- `SourceChembl::get_all`: the whole current mapping. -/
def SourceChembl.get_all (sc : SourceChembl) : List (String × EntryChembl) :=
  sc.data

/-- `SourceChembl::get_smiles_id_pairs`: all SMILES (from `values()`) and all
ids (from `keys()`), both in the one traversal order of the map. -/
def SourceChembl.get_smiles_id_pairs (sc : SourceChembl) : List String × List String :=
  (sc.data.map (fun p => p.2.smiles), sc.data.map (fun p => p.1))

/-- `SourceChembl::len`. -/
def SourceChembl.len (sc : SourceChembl) : Nat :=
  sc.data.length

/-- `rng.gen_range(0..n)` fed with a raw draw `r`: uniform over `[0, n)`,
modelled as `r % n`; panics (`none`) when the range `0..0` is empty. -/
def genRange (n : Nat) (r : Nat) : Option Nat :=
  if n = 0 then none else some (r % n)

/-- `(0..self.len()).map(|_| rng.gen_range(0..self.len()) <= size * 2).collect()`:
the mark vector of `choices`, one draw per index. `size` is a `usize`, so the
product `size * 2` is computed modulo `2^64` — the wrap of a release build
(a debug build would abort on the overflow instead; either way the comparison
never sees the unbounded product). -/
def mkMarks (n size : Nat) (rng : Nat → Nat) : List Nat → Option (List Bool)
  | [] => some []
  | i :: rest => do
    let d ← genRange n (rng i)
    let ms ← mkMarks n size rng rest
    pure (decide (d ≤ (size * 2) % 2 ^ 64) :: ms)

/-- `SourceChembl::choices`: draw a mark per record, keep the marked records
in traversal order, truncate to `size`. (`marks[*idx]` is total because the
mark vector has exactly `len` entries; the zip expresses the same pairing.) -/
def SourceChembl.choices (sc : SourceChembl) (size : Nat) (rng : Nat → Nat) :
    Option (List EntryChembl) :=
  match mkMarks sc.len size rng (List.range sc.len) with
  | none => none
  | some marks =>
    some (((((sc.data.map Prod.snd).zip marks).filter (fun p => p.2)).map Prod.fst).take size)

/-! ## Association-list lemmas -/

theorem assocGet_nil (k : String) : assocGet [] k = none := rfl

theorem assocGet_cons (q : String × EntryChembl) (m : List (String × EntryChembl)) (k : String) :
    assocGet (q :: m) k = if q.1 = k then some q.2 else assocGet m k := by
  by_cases h : q.1 = k <;>
    simp [assocGet, List.find?_cons, h]

theorem assocGet_insert_self (m : List (String × EntryChembl)) (k : String) (v : EntryChembl) :
    assocGet (assocInsert m k v) k = some v := by
  induction m with
  | nil => simp [assocInsert, assocGet_cons]
  | cons q rest ih =>
    by_cases h : q.1 = k
    · simp [assocInsert, h, assocGet_cons]
    · simpa [assocInsert, h, assocGet_cons] using ih

theorem assocGet_insert_ne (m : List (String × EntryChembl)) (k k' : String) (v : EntryChembl)
    (h : k' ≠ k) : assocGet (assocInsert m k v) k' = assocGet m k' := by
  have hk : k ≠ k' := fun hc => h hc.symm
  induction m with
  | nil => simp [assocInsert, assocGet_cons, assocGet_nil, hk]
  | cons q rest ih =>
    obtain ⟨a, b⟩ := q
    by_cases hq : a = k
    · subst hq
      simp [assocInsert, assocGet_cons, hk]
    · by_cases hq' : a = k' <;> simp [assocInsert, hq, assocGet_cons, hq', ih, h]

theorem mem_assocInsert (m : List (String × EntryChembl)) (k : String) (v : EntryChembl)
    (q : String × EntryChembl) (h : q ∈ assocInsert m k v) : q ∈ m ∨ q = (k, v) := by
  induction m with
  | nil => simpa [assocInsert] using h
  | cons r rest ih =>
    obtain ⟨a, b⟩ := r
    simp only [assocInsert] at h
    by_cases hr : a = k
    · rw [if_pos hr] at h
      rcases List.mem_cons.1 h with h1 | h1
      · exact Or.inr (by rw [h1, hr])
      · exact Or.inl (List.mem_cons_of_mem _ h1)
    · rw [if_neg hr] at h
      rcases List.mem_cons.1 h with h1 | h1
      · exact Or.inl (by rw [h1]; exact List.mem_cons_self _ _)
      · rcases ih h1 with h2 | h2
        · exact Or.inl (List.mem_cons_of_mem _ h2)
        · exact Or.inr h2

theorem mem_keys_assocInsert (m : List (String × EntryChembl)) (k : String) (v : EntryChembl)
    (x : String) (h : x ∈ (assocInsert m k v).map Prod.fst) :
    x ∈ m.map Prod.fst ∨ x = k := by
  rcases List.mem_map.1 h with ⟨q, hq, rfl⟩
  rcases mem_assocInsert m k v q hq with h' | h'
  · exact Or.inl (List.mem_map_of_mem Prod.fst h')
  · subst h'
    exact Or.inr rfl

theorem keys_assocInsert_nodup (m : List (String × EntryChembl)) (k : String) (v : EntryChembl)
    (h : (m.map Prod.fst).Nodup) : ((assocInsert m k v).map Prod.fst).Nodup := by
  induction m with
  | nil => simp [assocInsert]
  | cons q rest ih =>
    obtain ⟨a, b⟩ := q
    rw [List.map_cons, List.nodup_cons] at h
    by_cases hq : a = k
    · simp only [assocInsert, if_pos hq, List.map_cons, List.nodup_cons]
      exact h
    · simp only [assocInsert, if_neg hq, List.map_cons, List.nodup_cons]
      refine ⟨?_, ih h.2⟩
      intro hmem
      rcases mem_keys_assocInsert rest k v a hmem with h1 | h1
      · exact h.1 h1
      · exact hq h1

theorem assocGet_remove_self (m : List (String × EntryChembl)) (k : String) :
    assocGet (assocRemove m k) k = none := by
  have h : (assocRemove m k).find? (fun p => p.1 == k) = none := by
    refine List.find?_eq_none.2 ?_
    intro q hq
    have := List.of_mem_filter hq
    simpa using this
  simp [assocGet, h]

theorem assocRemove_cons (a : String) (b : EntryChembl) (m : List (String × EntryChembl))
    (k : String) :
    assocRemove ((a, b) :: m) k =
      if a = k then assocRemove m k else (a, b) :: assocRemove m k := by
  by_cases h : a = k <;> simp [assocRemove, List.filter_cons, h]

theorem assocGet_remove_ne (m : List (String × EntryChembl)) (k k' : String) (h : k' ≠ k) :
    assocGet (assocRemove m k) k' = assocGet m k' := by
  induction m with
  | nil => rfl
  | cons q rest ih =>
    obtain ⟨a, b⟩ := q
    by_cases hq : a = k
    · have ha : a ≠ k' := fun hc => h (hc ▸ hq)
      rw [assocRemove_cons, if_pos hq, ih, assocGet_cons]
      simp [ha]
    · rw [assocRemove_cons, if_neg hq, assocGet_cons, assocGet_cons, ih]

theorem mem_assocRemove (m : List (String × EntryChembl)) (k : String)
    (q : String × EntryChembl) (h : q ∈ assocRemove m k) : q ∈ m :=
  List.mem_of_mem_filter h

theorem keys_assocRemove_nodup (m : List (String × EntryChembl)) (k : String)
    (h : (m.map Prod.fst).Nodup) : ((assocRemove m k).map Prod.fst).Nodup :=
  h.sublist ((List.filter_sublist m).map Prod.fst)

theorem assocGet_of_mem_nodup (m : List (String × EntryChembl))
    (h : (m.map Prod.fst).Nodup) (p : String × EntryChembl) (hp : p ∈ m) :
    assocGet m p.1 = some p.2 := by
  induction m with
  | nil => cases hp
  | cons q rest ih =>
    rw [List.map_cons, List.nodup_cons] at h
    rcases List.mem_cons.1 hp with rfl | hp'
    · simp [assocGet_cons]
    · have hq : q.1 ≠ p.1 := by
        intro hc
        exact h.1 (hc ▸ List.mem_map_of_mem Prod.fst hp')
      simp [assocGet_cons, hq, ih h.2 hp']

/-! ## Folding the parsed pairs into the map -/

theorem assocGet_foldl (ps : List (String × EntryChembl)) (acc : List (String × EntryChembl))
    (k : String) :
    assocGet (ps.foldl insertStep acc) k =
      match ps.reverse.find? (fun p => p.1 == k) with
      | some p => some p.2
      | none => assocGet acc k := by
  induction ps generalizing acc with
  | nil => simp
  | cons q rest ih =>
    rw [List.foldl_cons, ih, List.reverse_cons, List.find?_append]
    cases hr : rest.reverse.find? (fun p => p.1 == k) with
    | some p => simp [Option.or]
    | none =>
      by_cases hq : q.1 = k
      · subst hq
        rw [List.find?_cons_of_pos _ (by simp)]
        exact assocGet_insert_self acc q.1 q.2
      · rw [List.find?_cons_of_neg _ (by simpa using hq), List.find?_nil]
        exact assocGet_insert_ne acc q.1 k q.2 fun hc => hq hc.symm

theorem keys_foldl_nodup (ps : List (String × EntryChembl)) (acc : List (String × EntryChembl))
    (h : (acc.map Prod.fst).Nodup) : ((ps.foldl insertStep acc).map Prod.fst).Nodup := by
  induction ps generalizing acc with
  | nil => simpa using h
  | cons q rest ih =>
    rw [List.foldl_cons]
    exact ih (assocInsert acc q.1 q.2) (keys_assocInsert_nodup acc q.1 q.2 h)

theorem mem_foldl (ps : List (String × EntryChembl)) (acc : List (String × EntryChembl))
    (q : String × EntryChembl) (h : q ∈ ps.foldl insertStep acc) : q ∈ acc ∨ q ∈ ps := by
  induction ps generalizing acc with
  | nil => exact Or.inl h
  | cons r rest ih =>
    rw [List.foldl_cons] at h
    rcases ih (assocInsert acc r.1 r.2) h with h1 | h1
    · rcases mem_assocInsert acc r.1 r.2 q h1 with h2 | h2
      · exact Or.inl h2
      · exact Or.inr (h2 ▸ List.mem_cons_self r rest)
    · exact Or.inr (List.mem_cons_of_mem r h1)

/-! ## Lemmas about line parsing -/

theorem EntryChembl.new_cons (a b c d : String) (rest : List String) :
    EntryChembl.new (a :: b :: c :: d :: rest) =
      some { chembl_id := a, smiles := b, inchi := c, inchi_key := d } := by
  simp [EntryChembl.new]

theorem parseFields_eq_some (v : List String) (k : String) (e : EntryChembl) :
    parseFields v = some (k, e) ↔
      v[0]? = some e.chembl_id ∧ v[1]? = some e.smiles ∧ v[2]? = some e.inchi ∧
      v[3]? = some e.inchi_key ∧ k = e.chembl_id := by
  obtain ⟨cid, s, i, ik⟩ := e
  match v with
  | [] => simp [parseFields, EntryChembl.new]
  | [a] => simp [parseFields, EntryChembl.new]
  | [a, b] => simp [parseFields, EntryChembl.new]
  | [a, b, c] => simp [parseFields, EntryChembl.new]
  | a :: b :: c :: d :: rest =>
    simp only [parseFields, EntryChembl.new_cons, List.getElem?_cons_zero,
      List.getElem?_cons_succ, Option.bind_eq_bind, Option.some_bind, Option.some.injEq,
      Prod.mk.injEq, EntryChembl.mk.injEq]
    constructor
    · rintro ⟨rfl, rfl, rfl, rfl, rfl⟩
      simp
    · rintro ⟨h0, h1, h2, h3, rfl⟩
      simp_all

theorem parseFields_eq_none (v : List String) (h : v.length < 4) : parseFields v = none := by
  match v with
  | [] => rfl
  | [a] => rfl
  | [a, b] => rfl
  | [a, b, c] => rfl
  | a :: b :: c :: d :: rest => simp at h; omega

theorem parseFields_isSome (v : List String) (h : 4 ≤ v.length) :
    ∃ k e, parseFields v = some (k, e) := by
  match v with
  | [] => simp at h
  | [a] => simp at h
  | [a, b] => simp at h
  | [a, b, c] => simp at h
  | a :: b :: c :: d :: rest =>
    exact ⟨a, { chembl_id := a, smiles := b, inchi := c, inchi_key := d },
      by simp [parseFields, EntryChembl.new_cons]⟩

theorem parseLine_key_eq_id (line : String) (k : String) (e : EntryChembl)
    (h : parseLine line = some (k, e)) : k = e.chembl_id :=
  ((parseFields_eq_some (splitTab line) k e).1 h).2.2.2.2

/-! ## Lemmas about `parseLines` -/

theorem parseLines_eq_filterMap (lines : List String) (ps : List (String × EntryChembl))
    (h : parseLines lines = some ps) : lines.filterMap parseLine = ps := by
  induction lines generalizing ps with
  | nil =>
    simp only [parseLines, Option.some.injEq] at h
    simp [← h]
  | cons line rest ih =>
    simp only [parseLines, Option.pure_def, Option.bind_eq_bind, Option.bind_eq_some,
      Option.some.injEq] at h
    rcases h with ⟨p, hp, ps', hps', rfl⟩
    rw [List.filterMap_cons, hp, ih ps' hps']

theorem parseLines_none_of_mem (lines : List String) (line : String) (hmem : line ∈ lines)
    (h : parseLine line = none) : parseLines lines = none := by
  induction lines with
  | nil => cases hmem
  | cons l rest ih =>
    rcases List.mem_cons.1 hmem with rfl | hmem'
    · simp [parseLines, h]
    · cases hl : parseLine l with
      | none => simp [parseLines, hl]
      | some p => simp [parseLines, hl, ih hmem']

theorem mem_parseLines (lines : List String) (ps : List (String × EntryChembl))
    (h : parseLines lines = some ps) (p : String × EntryChembl) (hp : p ∈ ps) :
    ∃ line ∈ lines, parseLine line = some p := by
  induction lines generalizing ps with
  | nil =>
    simp only [parseLines, Option.some.injEq] at h
    rw [← h] at hp
    cases hp
  | cons line rest ih =>
    simp only [parseLines, Option.pure_def, Option.bind_eq_bind, Option.bind_eq_some,
      Option.some.injEq] at h
    rcases h with ⟨q, hq, ps', hps', rfl⟩
    rcases List.mem_cons.1 hp with rfl | hp'
    · exact ⟨line, List.mem_cons_self line rest, hq⟩
    · rcases ih ps' hps' hp' with ⟨l, hl, hl'⟩
      exact ⟨l, List.mem_cons_of_mem line hl, hl'⟩

/-! ## `getLast?` of a filtered list is the last match -/

theorem find?_eq_head?_filter (p : α → Bool) (l : List α) :
    l.find? p = (l.filter p).head? := by
  induction l with
  | nil => rfl
  | cons a rest ih =>
    by_cases h : p a
    · rw [List.find?_cons_of_pos _ h, List.filter_cons_of_pos h, List.head?_cons]
    · rw [List.find?_cons_of_neg _ h, List.filter_cons_of_neg h, ih]

theorem getLast?_filter_eq_find?_reverse (p : α → Bool) (l : List α) :
    (l.filter p).getLast? = l.reverse.find? p := by
  rw [List.getLast?_eq_head?_reverse, find?_eq_head?_filter, List.filter_reverse]

/-! ## Characterizing a successful `load` -/

theorem load_eq_ok (sc sc' : SourceChembl) (lines : List String) :
    sc.load lines = LoadResult.ok sc' ↔
      ∃ ps, parseLines lines = some ps ∧
        sc' = SourceChembl.sanitize ⟨ps.foldl insertStep []⟩ := by
  cases h : parseLines lines with
  | none => simp [SourceChembl.load, h]
  | some ps => simp [SourceChembl.load, h, eq_comm]

theorem load_data (sc sc' : SourceChembl) (lines : List String)
    (h : sc.load lines = LoadResult.ok sc') :
    ∃ ps, parseLines lines = some ps ∧
      sc'.data = assocRemove (ps.foldl insertStep []) "chembl_id" := by
  rcases (load_eq_ok sc sc' lines).1 h with ⟨ps, hps, rfl⟩
  exact ⟨ps, hps, rfl⟩

theorem load_keys_nodup (sc sc' : SourceChembl) (lines : List String)
    (h : sc.load lines = LoadResult.ok sc') : (sc'.data.map Prod.fst).Nodup := by
  rcases load_data sc sc' lines h with ⟨ps, _, hdata⟩
  rw [hdata]
  exact keys_assocRemove_nodup _ _ (keys_foldl_nodup ps [] (by simp))

theorem load_key_eq_id (sc sc' : SourceChembl) (lines : List String)
    (h : sc.load lines = LoadResult.ok sc') :
    ∀ p ∈ sc'.data, p.1 = p.2.chembl_id := by
  rcases load_data sc sc' lines h with ⟨ps, hps, hdata⟩
  intro p hp
  rw [hdata] at hp
  rcases mem_foldl ps [] p (mem_assocRemove _ _ p hp) with h1 | h1
  · cases h1
  · rcases mem_parseLines lines ps hps p h1 with ⟨line, _, hline⟩
    exact parseLine_key_eq_id line p.1 p.2 hline

theorem load_values_nodup (sc sc' : SourceChembl) (lines : List String)
    (h : sc.load lines = LoadResult.ok sc') : (sc'.data.map Prod.snd).Nodup := by
  have h1 := load_keys_nodup sc sc' lines h
  have h2 := load_key_eq_id sc sc' lines h
  have h3 : sc'.data.map Prod.fst = sc'.data.map (fun p => p.2.chembl_id) :=
    List.map_congr_left h2
  rw [h3] at h1
  have h4 : sc'.data.map (fun p => p.2.chembl_id) =
      (sc'.data.map Prod.snd).map EntryChembl.chembl_id := by
    rw [List.map_map]
    rfl
  rw [h4] at h1
  exact h1.of_map _

theorem load_get_some (sc sc' : SourceChembl) (lines : List String)
    (h : sc.load lines = LoadResult.ok sc') (id : String) (e : EntryChembl)
    (hget : sc'.get id = some e) :
    ((lines.filterMap parseLine).filter (fun p => p.1 == id)).getLast? = some (id, e) := by
  rcases load_data sc sc' lines h with ⟨ps, hps, hdata⟩
  rw [SourceChembl.get, hdata] at hget
  by_cases hid : id = "chembl_id"
  · rw [hid, assocGet_remove_self] at hget
    cases hget
  · rw [assocGet_remove_ne _ _ _ hid, assocGet_foldl] at hget
    rw [parseLines_eq_filterMap lines ps hps, getLast?_filter_eq_find?_reverse]
    cases hr : ps.reverse.find? (fun p => p.1 == id) with
    | none => rw [hr] at hget; cases hget
    | some p =>
      rw [hr] at hget
      have hkey' : p.1 = id := by
        have hpred := List.find?_some hr
        simpa using hpred
      have hval : p.2 = e := by simpa using hget
      exact congrArg some (Prod.ext hkey' hval)

theorem load_get_none (sc sc' : SourceChembl) (lines : List String)
    (h : sc.load lines = LoadResult.ok sc') (id : String)
    (hid : ∀ line ∈ lines, (splitTab line)[0]? ≠ some id) :
    sc'.get id = none := by
  rcases load_data sc sc' lines h with ⟨ps, hps, hdata⟩
  rw [SourceChembl.get, hdata]
  by_cases hs : id = "chembl_id"
  · rw [hs, assocGet_remove_self]
  · rw [assocGet_remove_ne _ _ _ hs, assocGet_foldl]
    have hnone : ps.reverse.find? (fun p => p.1 == id) = none := by
      refine List.find?_eq_none.2 ?_
      intro p hp
      rcases mem_parseLines lines ps hps p (List.mem_reverse.1 hp) with ⟨line, hline, hsome⟩
      have hfields := (parseFields_eq_some (splitTab line) p.1 p.2).1 hsome
      have h0 : (splitTab line)[0]? = some p.1 := by
        rw [hfields.1, ← hfields.2.2.2.2]
      intro hbeq
      exact hid line hline (by rw [h0, (beq_iff_eq.1 hbeq : p.1 = id)])
    rw [hnone, assocGet_nil]

/-! ## Lemmas about `choices` -/

theorem mkMarks_length (n size : Nat) (rng : Nat → Nat) (idxs : List Nat) (ms : List Bool)
    (h : mkMarks n size rng idxs = some ms) : ms.length = idxs.length := by
  induction idxs generalizing ms with
  | nil =>
    simp only [mkMarks, Option.some.injEq] at h
    simp [← h]
  | cons i rest ih =>
    simp only [mkMarks, Option.pure_def, Option.bind_eq_bind, Option.bind_eq_some,
      Option.some.injEq] at h
    rcases h with ⟨d, hd, ms', hms', rfl⟩
    simp [ih ms' hms']

theorem mkMarks_pos (n size : Nat) (rng : Nat → Nat) (hn : 0 < n) (idxs : List Nat) :
    mkMarks n size rng idxs =
      some (idxs.map fun i => decide (rng i % n ≤ (size * 2) % 2 ^ 64)) := by
  induction idxs with
  | nil => rfl
  | cons i rest ih =>
    have hgen : genRange n (rng i) = some (rng i % n) := by
      simp [genRange, Nat.pos_iff_ne_zero.1 hn]
    simp [mkMarks, hgen, ih]

theorem filter_zip_all_true (vs : List EntryChembl) (ms : List Bool)
    (hlen : vs.length = ms.length) (hall : ∀ b ∈ ms, b = true) :
    ((vs.zip ms).filter (fun p => p.2)).map Prod.fst = vs := by
  induction vs generalizing ms with
  | nil => simp
  | cons v rest ih =>
    cases ms with
    | nil => simp at hlen
    | cons b ms' =>
      have hb : b = true := hall b (List.mem_cons_self b ms')
      subst hb
      simp [List.zip_cons_cons, List.filter_cons,
        ih ms' (by simpa using hlen) (fun b hb => hall b (List.mem_cons_of_mem _ hb))]

theorem choices_sublist (sc : SourceChembl) (size : Nat) (rng : Nat → Nat)
    (res : List EntryChembl) (h : sc.choices size rng = some res) :
    res.Sublist (sc.data.map Prod.snd) := by
  unfold SourceChembl.choices at h
  cases hm : mkMarks sc.len size rng (List.range sc.len) with
  | none => rw [hm] at h; cases h
  | some marks =>
    rw [hm] at h
    simp only [Option.some.injEq] at h
    have hlen : (sc.data.map Prod.snd).length ≤ marks.length := by
      rw [mkMarks_length sc.len size rng (List.range sc.len) marks hm, List.length_range,
        List.length_map]
      exact Nat.le_refl _
    have h1 : ((((sc.data.map Prod.snd).zip marks).filter (fun p => p.2)).map Prod.fst).Sublist
        (((sc.data.map Prod.snd).zip marks).map Prod.fst) :=
      (List.filter_sublist _).map Prod.fst
    have h2 : ((sc.data.map Prod.snd).zip marks).map Prod.fst = sc.data.map Prod.snd :=
      List.map_fst_zip _ _ hlen
    have h3 := (List.take_sublist size _).trans h1
    rw [h2] at h3
    rw [← h]
    exact h3

theorem choices_length_le (sc : SourceChembl) (size : Nat) (rng : Nat → Nat)
    (res : List EntryChembl) (h : sc.choices size rng = some res) : res.length ≤ size := by
  unfold SourceChembl.choices at h
  cases hm : mkMarks sc.len size rng (List.range sc.len) with
  | none => rw [hm] at h; cases h
  | some marks =>
    rw [hm] at h
    simp only [Option.some.injEq] at h
    rw [← h]
    exact List.length_take_le _ _

theorem choices_all_marked (sc : SourceChembl) (size : Nat) (rng : Nat → Nat)
    (hlen : sc.len ≤ 2 * size + 1) (hsize : size * 2 < 2 ^ 64) :
    sc.choices size rng = some ((sc.data.map Prod.snd).take size) := by
  cases hn : sc.len with
  | zero =>
    have hdata : sc.data = [] := List.length_eq_zero.1 hn
    unfold SourceChembl.choices
    rw [hn, hdata]
    rfl
  | succ m =>
    have hpos : 0 < sc.len := hn ▸ Nat.succ_pos m
    unfold SourceChembl.choices
    rw [mkMarks_pos sc.len size rng hpos (List.range sc.len)]
    have hall : ∀ b ∈ (List.range sc.len).map
        fun i => decide (rng i % sc.len ≤ (size * 2) % 2 ^ 64), b = true := by
      intro b hb
      rcases List.mem_map.1 hb with ⟨i, _, rfl⟩
      have hmod : rng i % sc.len < sc.len := Nat.mod_lt _ hpos
      have hle : rng i % sc.len ≤ (size * 2) % 2 ^ 64 := by
        rw [Nat.mod_eq_of_lt hsize]
        omega
      simpa using hle
    have hlens : (sc.data.map Prod.snd).length =
        ((List.range sc.len).map
          fun i => decide (rng i % sc.len ≤ (size * 2) % 2 ^ 64)).length := by
      rw [List.length_map, List.length_map, List.length_range, SourceChembl.len]
    exact congrArg some (congrArg (List.take size) (filter_zip_all_true _ _ hlens hall))

/-! ## Claims -/

/-- C1: after a successful `load`, the mapping holds at most one record per
distinct id (its keys are pairwise distinct), and whenever a record is stored
under an id it is the one built from the last line of the file whose first
tab-separated field is that id (last write wins, no merge). -/
theorem s2p_C1_load_last_write_wins (sc sc' : SourceChembl) (lines : List String)
    (h : sc.load lines = LoadResult.ok sc') :
    (sc'.data.map Prod.fst).Nodup ∧
    ∀ id e, sc'.get id = some e →
      ((lines.filterMap parseLine).filter (fun p => p.1 == id)).getLast? = some (id, e) :=
  ⟨load_keys_nodup sc sc' lines h, fun id e hget => load_get_some sc sc' lines h id e hget⟩

theorem s2p_C1_witness :
    SourceChembl.load ⟨[]⟩ ["a\tp\tq\tr", "a\tp2\tq2\tr2"] =
      LoadResult.ok ⟨[("a", ⟨"a", "p2", "q2", "r2"⟩)]⟩ ∧
    (((SourceChembl.mk [("a", ⟨"a", "p2", "q2", "r2"⟩)]).data.map Prod.fst).Nodup ∧
      ∀ id e, (SourceChembl.mk [("a", ⟨"a", "p2", "q2", "r2"⟩)]).get id = some e →
        ((["a\tp\tq\tr", "a\tp2\tq2\tr2"].filterMap parseLine).filter
          (fun p => p.1 == id)).getLast? = some (id, e)) :=
  ⟨by decide,
    s2p_C1_load_last_write_wins ⟨[]⟩ ⟨[("a", ⟨"a", "p2", "q2", "r2"⟩)]⟩
      ["a\tp\tq\tr", "a\tp2\tq2\tr2"] (by decide)⟩

/-- C2 counterexample: on a file whose single line has only 3 tab-separated
fields, `load` ends in a panic — an uncontrolled abort of the process — and
not in a recoverable ParseError value returned to the caller (the embedding's
`LoadResult` has no error-value outcome at all, matching the Rust source). -/
theorem s2p_C2_counterexample :
    SourceChembl.load ⟨[]⟩ ["a\tb\tc"] = LoadResult.panic := by decide

/-- C2 (amended): when some input line has fewer than 4 tab-separated fields,
`load` fails by panicking (uncontrolled abort), not by surfacing a
recoverable error value to the caller. -/
theorem s2p_C2_load_panics_on_short_line (sc : SourceChembl) (lines : List String)
    (line : String) (hmem : line ∈ lines) (hshort : (splitTab line).length < 4) :
    sc.load lines = LoadResult.panic := by
  have hpl : parseLine line = none := parseFields_eq_none _ hshort
  unfold SourceChembl.load
  rw [parseLines_none_of_mem lines line hmem hpl]

theorem s2p_C2_witness :
    ("a\tb\tc" ∈ ["a\tb\tc"] ∧ (splitTab "a\tb\tc").length < 4) ∧
    SourceChembl.load ⟨[]⟩ ["a\tb\tc"] = LoadResult.panic :=
  ⟨⟨by decide, by decide⟩,
    s2p_C2_load_panics_on_short_line ⟨[]⟩ ["a\tb\tc"] "a\tb\tc" (by decide) (by decide)⟩

/-- C3 counterexample: a loaded store with 4 records, size 1 ≤ len, and a
random outcome whose every draw is 3 (so every `3 % 4 = 3 > 2·1` mark is
false): `choices 1` returns 0 records, not exactly 1. -/
theorem s2p_C3_counterexample :
    SourceChembl.load ⟨[]⟩ ["a\tp\tq\tr", "b\tp\tq\tr", "c\tp\tq\tr", "d\tp\tq\tr"] =
      LoadResult.ok ⟨[("a", ⟨"a", "p", "q", "r"⟩), ("b", ⟨"b", "p", "q", "r"⟩),
        ("c", ⟨"c", "p", "q", "r"⟩), ("d", ⟨"d", "p", "q", "r"⟩)]⟩ ∧
    1 ≤ (SourceChembl.mk [("a", ⟨"a", "p", "q", "r"⟩), ("b", ⟨"b", "p", "q", "r"⟩),
        ("c", ⟨"c", "p", "q", "r"⟩), ("d", ⟨"d", "p", "q", "r"⟩)]).len ∧
    (SourceChembl.mk [("a", ⟨"a", "p", "q", "r"⟩), ("b", ⟨"b", "p", "q", "r"⟩),
        ("c", ⟨"c", "p", "q", "r"⟩), ("d", ⟨"d", "p", "q", "r"⟩)]).choices 1
        (fun _ => 3) = some [] :=
  ⟨by decide, by decide, by decide⟩

/-- C3 (amended): for every loaded store, every size k and every outcome of
the random source, `choices k` returns at most k records, each present in the
store, with no duplicates (exactly k is not guaranteed for every outcome). -/
theorem s2p_C3_choices_subset_nodup (sc sc' : SourceChembl) (lines : List String)
    (h : sc.load lines = LoadResult.ok sc') (k : Nat) (rng : Nat → Nat)
    (res : List EntryChembl) (hres : sc'.choices k rng = some res) :
    res.length ≤ k ∧ (∀ e ∈ res, ∃ id, sc'.get id = some e) ∧ res.Nodup := by
  have hsub := choices_sublist sc' k rng res hres
  refine ⟨choices_length_le sc' k rng res hres, ?_,
    (load_values_nodup sc sc' lines h).sublist hsub⟩
  intro e he
  have hmem : e ∈ sc'.data.map Prod.snd := hsub.subset he
  rcases List.mem_map.1 hmem with ⟨p, hp, rfl⟩
  exact ⟨p.1, assocGet_of_mem_nodup sc'.data (load_keys_nodup sc sc' lines h) p hp⟩

theorem s2p_C3_witness :
    (SourceChembl.load ⟨[]⟩ ["a\tp\tq\tr", "b\tp\tq\tr"] =
        LoadResult.ok ⟨[("a", ⟨"a", "p", "q", "r"⟩), ("b", ⟨"b", "p", "q", "r"⟩)]⟩ ∧
      (SourceChembl.mk [("a", ⟨"a", "p", "q", "r"⟩), ("b", ⟨"b", "p", "q", "r"⟩)]).choices 1
        (fun _ => 0) = some [⟨"a", "p", "q", "r"⟩]) ∧
    (([⟨"a", "p", "q", "r"⟩] : List EntryChembl).length ≤ 1 ∧
      (∀ e ∈ ([⟨"a", "p", "q", "r"⟩] : List EntryChembl), ∃ id,
        (SourceChembl.mk [("a", ⟨"a", "p", "q", "r"⟩), ("b", ⟨"b", "p", "q", "r"⟩)]).get id =
          some e) ∧
      ([⟨"a", "p", "q", "r"⟩] : List EntryChembl).Nodup) :=
  ⟨⟨by decide, by decide⟩,
    s2p_C3_choices_subset_nodup ⟨[]⟩
      ⟨[("a", ⟨"a", "p", "q", "r"⟩), ("b", ⟨"b", "p", "q", "r"⟩)]⟩
      ["a\tp\tq\tr", "b\tp\tq\tr"] (by decide) 1 (fun _ => 0)
      [⟨"a", "p", "q", "r"⟩] (by decide)⟩

/-- C4: `load` fully replaces the in-memory contents: loading file B into any
store yields exactly what loading B into an empty store yields, and every id
that is the first field of no line of B (in particular any id occurring only
in a previously loaded file A) maps to none afterwards. -/
theorem s2p_C4_load_replaces (sc sc' : SourceChembl) (linesB : List String)
    (h : sc.load linesB = LoadResult.ok sc') :
    SourceChembl.load ⟨[]⟩ linesB = LoadResult.ok sc' ∧
    ∀ id, (∀ line ∈ linesB, (splitTab line)[0]? ≠ some id) → sc'.get id = none := by
  constructor
  · rw [← h]
    rfl
  · intro id hid
    exact load_get_none sc sc' linesB h id hid

theorem s2p_C4_witness :
    SourceChembl.load ⟨[("x", ⟨"x", "p", "q", "r"⟩)]⟩ ["y\tp\tq\tr"] =
      LoadResult.ok ⟨[("y", ⟨"y", "p", "q", "r"⟩)]⟩ ∧
    (SourceChembl.load ⟨[]⟩ ["y\tp\tq\tr"] = LoadResult.ok ⟨[("y", ⟨"y", "p", "q", "r"⟩)]⟩ ∧
      ∀ id, (∀ line ∈ ["y\tp\tq\tr"], (splitTab line)[0]? ≠ some id) →
        (SourceChembl.mk [("y", ⟨"y", "p", "q", "r"⟩)]).get id = none) :=
  ⟨by decide,
    s2p_C4_load_replaces ⟨[("x", ⟨"x", "p", "q", "r"⟩)]⟩ ⟨[("y", ⟨"y", "p", "q", "r"⟩)]⟩
      ["y\tp\tq\tr"] (by decide)⟩

/-- C5: after any successful `load`, the sentinel key `"chembl_id"` is absent
from the mapping — `get "chembl_id"` returns none — even when the file
contains a line whose first field is the literal `"chembl_id"`. -/
theorem s2p_C5_sentinel_absent (sc sc' : SourceChembl) (lines : List String)
    (h : sc.load lines = LoadResult.ok sc') : sc'.get "chembl_id" = none := by
  rcases load_data sc sc' lines h with ⟨ps, _, hdata⟩
  rw [SourceChembl.get, hdata, assocGet_remove_self]

theorem s2p_C5_witness :
    SourceChembl.load ⟨[]⟩
        ["chembl_id\tcanonical_smiles\tstandard_inchi\tstandard_inchi_key"] =
      LoadResult.ok ⟨[]⟩ ∧
    (SourceChembl.mk []).get "chembl_id" = none :=
  ⟨by decide,
    s2p_C5_sentinel_absent ⟨[]⟩ ⟨[]⟩
      ["chembl_id\tcanonical_smiles\tstandard_inchi\tstandard_inchi_key"] (by decide)⟩

/-- C6: `get_smiles_id_pairs` returns two sequences each of length `len`,
and they pair element-wise under the single traversal of the mapping: for
every index i, looking up the i-th id with `get` yields a record whose
SMILES string is the i-th SMILES. -/
theorem s2p_C6_smiles_id_pairs (sc sc' : SourceChembl) (lines : List String)
    (h : sc.load lines = LoadResult.ok sc') :
    (sc'.get_smiles_id_pairs.1.length = sc'.len ∧
      sc'.get_smiles_id_pairs.2.length = sc'.len) ∧
    ∀ (i : Nat) (id s : String), (sc'.get_smiles_id_pairs.2)[i]? = some id →
      (sc'.get_smiles_id_pairs.1)[i]? = some s →
      ∃ e, sc'.get id = some e ∧ e.smiles = s := by
  refine ⟨⟨by simp [SourceChembl.get_smiles_id_pairs, SourceChembl.len],
    by simp [SourceChembl.get_smiles_id_pairs, SourceChembl.len]⟩, ?_⟩
  intro i id s hid hs
  rw [SourceChembl.get_smiles_id_pairs, List.getElem?_map] at hid hs
  cases hp : sc'.data[i]? with
  | none =>
    rw [hp] at hid
    cases hid
  | some p =>
    rw [hp] at hid hs
    have hp1 : p.1 = id := by simpa using hid
    have hp2 : p.2.smiles = s := by simpa using hs
    have hmem : p ∈ sc'.data := by
      have := List.getElem?_eq_some.1 hp
      rcases this with ⟨hlt, hget⟩
      exact hget ▸ List.getElem_mem hlt
    exact ⟨p.2, hp1 ▸ assocGet_of_mem_nodup sc'.data (load_keys_nodup sc sc' lines h) p hmem,
      hp2⟩

theorem s2p_C6_witness :
    SourceChembl.load ⟨[]⟩ ["a\tsa\tq\tr", "b\tsb\tq\tr"] =
      LoadResult.ok ⟨[("a", ⟨"a", "sa", "q", "r"⟩), ("b", ⟨"b", "sb", "q", "r"⟩)]⟩ ∧
    (((SourceChembl.mk [("a", ⟨"a", "sa", "q", "r"⟩),
          ("b", ⟨"b", "sb", "q", "r"⟩)]).get_smiles_id_pairs.1.length =
        (SourceChembl.mk [("a", ⟨"a", "sa", "q", "r"⟩), ("b", ⟨"b", "sb", "q", "r"⟩)]).len ∧
      (SourceChembl.mk [("a", ⟨"a", "sa", "q", "r"⟩),
          ("b", ⟨"b", "sb", "q", "r"⟩)]).get_smiles_id_pairs.2.length =
        (SourceChembl.mk [("a", ⟨"a", "sa", "q", "r"⟩), ("b", ⟨"b", "sb", "q", "r"⟩)]).len) ∧
    ∀ (i : Nat) (id s : String),
      ((SourceChembl.mk [("a", ⟨"a", "sa", "q", "r"⟩),
        ("b", ⟨"b", "sb", "q", "r"⟩)]).get_smiles_id_pairs.2)[i]? = some id →
      ((SourceChembl.mk [("a", ⟨"a", "sa", "q", "r"⟩),
        ("b", ⟨"b", "sb", "q", "r"⟩)]).get_smiles_id_pairs.1)[i]? = some s →
      ∃ e, (SourceChembl.mk [("a", ⟨"a", "sa", "q", "r"⟩),
        ("b", ⟨"b", "sb", "q", "r"⟩)]).get id = some e ∧ e.smiles = s) :=
  ⟨by decide,
    s2p_C6_smiles_id_pairs ⟨[]⟩
      ⟨[("a", ⟨"a", "sa", "q", "r"⟩), ("b", ⟨"b", "sb", "q", "r"⟩)]⟩
      ["a\tsa\tq\tr", "b\tsb\tq\tr"] (by decide)⟩

/-- C7: `get_all` returns the mapping itself: a genuine mapping (pairwise
distinct keys) with exactly `len` entries, in which every entry's key equals
the `chembl_id` field of the record stored under it. -/
theorem s2p_C7_get_all (sc sc' : SourceChembl) (lines : List String)
    (h : sc.load lines = LoadResult.ok sc') :
    (sc'.get_all.map Prod.fst).Nodup ∧ sc'.get_all.length = sc'.len ∧
    ∀ p ∈ sc'.get_all, p.1 = p.2.chembl_id :=
  ⟨load_keys_nodup sc sc' lines h, rfl, load_key_eq_id sc sc' lines h⟩

theorem s2p_C7_witness :
    SourceChembl.load ⟨[]⟩ ["a\tp\tq\tr", "b\tp2\tq2\tr2"] =
      LoadResult.ok ⟨[("a", ⟨"a", "p", "q", "r"⟩), ("b", ⟨"b", "p2", "q2", "r2"⟩)]⟩ ∧
    (((SourceChembl.mk [("a", ⟨"a", "p", "q", "r"⟩),
          ("b", ⟨"b", "p2", "q2", "r2"⟩)]).get_all.map Prod.fst).Nodup ∧
      (SourceChembl.mk [("a", ⟨"a", "p", "q", "r"⟩),
          ("b", ⟨"b", "p2", "q2", "r2"⟩)]).get_all.length =
        (SourceChembl.mk [("a", ⟨"a", "p", "q", "r"⟩), ("b", ⟨"b", "p2", "q2", "r2"⟩)]).len ∧
      ∀ p ∈ (SourceChembl.mk [("a", ⟨"a", "p", "q", "r"⟩),
          ("b", ⟨"b", "p2", "q2", "r2"⟩)]).get_all, p.1 = p.2.chembl_id) :=
  ⟨by decide,
    s2p_C7_get_all ⟨[]⟩ ⟨[("a", ⟨"a", "p", "q", "r"⟩), ("b", ⟨"b", "p2", "q2", "r2"⟩)]⟩
      ["a\tp\tq\tr", "b\tp2\tq2\tr2"] (by decide)⟩

/-- C8 counterexample: the line `"x\t\tq\tr"` (an empty second field) loads
successfully and stores a record whose `smiles` field is the empty string —
so the fields of a stored record are not always non-empty. -/
theorem s2p_C8_counterexample :
    SourceChembl.load ⟨[]⟩ ["x\t\tq\tr"] =
      LoadResult.ok ⟨[("x", ⟨"x", "", "q", "r"⟩)]⟩ ∧
    (SourceChembl.mk [("x", ⟨"x", "", "q", "r"⟩)]).get "x" = some ⟨"x", "", "q", "r"⟩ ∧
    (EntryChembl.mk "x" "" "q" "r").smiles = "" :=
  ⟨by decide, by decide, rfl⟩

/-- C8 (amended): every record stored after a successful `load` has its four
fields taken positionally from the first four tab-separated columns of some
originating input line; the fields may be empty, since no validation beyond
column-splitting is performed. -/
theorem s2p_C8_fields_positional (sc sc' : SourceChembl) (lines : List String)
    (h : sc.load lines = LoadResult.ok sc') (id : String) (e : EntryChembl)
    (hget : sc'.get id = some e) :
    ∃ line ∈ lines, (splitTab line)[0]? = some e.chembl_id ∧
      (splitTab line)[1]? = some e.smiles ∧ (splitTab line)[2]? = some e.inchi ∧
      (splitTab line)[3]? = some e.inchi_key := by
  rcases load_data sc sc' lines h with ⟨ps, hps, hdata⟩
  rw [SourceChembl.get, assocGet] at hget
  cases hf : sc'.data.find? (fun p => p.1 == id) with
  | none =>
    rw [hf] at hget
    cases hget
  | some p =>
    rw [hf] at hget
    have hp2 : p.2 = e := by simpa using hget
    have hpmem : p ∈ sc'.data := List.mem_of_find?_eq_some hf
    rw [hdata] at hpmem
    rcases mem_foldl ps [] p (mem_assocRemove _ _ p hpmem) with h1 | h1
    · cases h1
    · rcases mem_parseLines lines ps hps p h1 with ⟨line, hline, hsome⟩
      have hfields := (parseFields_eq_some (splitTab line) p.1 p.2).1 hsome
      rw [hp2] at hfields
      exact ⟨line, hline, hfields.1, hfields.2.1, hfields.2.2.1, hfields.2.2.2.1⟩

theorem s2p_C8_witness :
    SourceChembl.load ⟨[]⟩ ["a\tp\tq\tr"] = LoadResult.ok ⟨[("a", ⟨"a", "p", "q", "r"⟩)]⟩ ∧
    (SourceChembl.mk [("a", ⟨"a", "p", "q", "r"⟩)]).get "a" = some ⟨"a", "p", "q", "r"⟩ ∧
    ∃ line ∈ ["a\tp\tq\tr"],
      (splitTab line)[0]? = some (EntryChembl.mk "a" "p" "q" "r").chembl_id ∧
      (splitTab line)[1]? = some (EntryChembl.mk "a" "p" "q" "r").smiles ∧
      (splitTab line)[2]? = some (EntryChembl.mk "a" "p" "q" "r").inchi ∧
      (splitTab line)[3]? = some (EntryChembl.mk "a" "p" "q" "r").inchi_key :=
  ⟨by decide, by decide,
    s2p_C8_fields_positional ⟨[]⟩ ⟨[("a", ⟨"a", "p", "q", "r"⟩)]⟩ ["a\tp\tq\tr"] (by decide)
      "a" ⟨"a", "p", "q", "r"⟩ (by decide)⟩

/-- C9 counterexample: a loaded store with 3 records and `size = 2^63`
satisfies `len ≤ 2·size + 1` in unbounded arithmetic, but in the program the
`usize` product `size * 2` wraps to 0, so the marking condition fails for
nonzero draws: the outcome whose every raw draw is 1 leaves every record
unmarked and `choices` returns 0 records, not `min(size, len) = 3`. -/
theorem s2p_C9_counterexample :
    SourceChembl.load ⟨[]⟩ ["a\tp\tq\tr", "b\tp\tq\tr", "c\tp\tq\tr"] =
      LoadResult.ok ⟨[("a", ⟨"a", "p", "q", "r"⟩), ("b", ⟨"b", "p", "q", "r"⟩),
        ("c", ⟨"c", "p", "q", "r"⟩)]⟩ ∧
    (SourceChembl.mk [("a", ⟨"a", "p", "q", "r"⟩), ("b", ⟨"b", "p", "q", "r"⟩),
      ("c", ⟨"c", "p", "q", "r"⟩)]).len ≤ 2 * 2 ^ 63 + 1 ∧
    (SourceChembl.mk [("a", ⟨"a", "p", "q", "r"⟩), ("b", ⟨"b", "p", "q", "r"⟩),
      ("c", ⟨"c", "p", "q", "r"⟩)]).choices (2 ^ 63) (fun _ => 1) = some [] ∧
    ([] : List EntryChembl).length ≠
      min (2 ^ 63) (SourceChembl.mk [("a", ⟨"a", "p", "q", "r"⟩),
        ("b", ⟨"b", "p", "q", "r"⟩), ("c", ⟨"c", "p", "q", "r"⟩)]).len :=
  ⟨by decide, by decide, by decide, by decide⟩

/-- C9 (amended): for every loaded store, every outcome of the random source
and every size whose doubling does not overflow `usize` (`size < 2^63`),
when `len ≤ 2·size + 1` every draw over `[0, len)` is at most `2·size`, so
every record is marked and `choices size` deterministically returns exactly
`min size len` records; for larger sizes the wrapped product breaks the
bound, as the counterexample shows. -/
theorem s2p_C9_small_store_deterministic (sc sc' : SourceChembl) (lines : List String)
    (h : sc.load lines = LoadResult.ok sc') (size : Nat) (rng : Nat → Nat)
    (hsize : size < 2 ^ 63) (hlen : sc'.len ≤ 2 * size + 1) :
    ∃ res, sc'.choices size rng = some res ∧ res.length = min size sc'.len := by
  have hs : size * 2 < 2 ^ 64 := by
    have h1 : (2 : Nat) ^ 63 = 9223372036854775808 := by norm_num
    have h2 : (2 : Nat) ^ 64 = 18446744073709551616 := by norm_num
    rw [h1] at hsize
    rw [h2]
    omega
  refine ⟨(sc'.data.map Prod.snd).take size, choices_all_marked sc' size rng hlen hs, ?_⟩
  rw [List.length_take, List.length_map]
  rfl

theorem s2p_C9_witness :
    (SourceChembl.load ⟨[]⟩ ["a\tp\tq\tr", "b\tp\tq\tr", "c\tp\tq\tr"] =
        LoadResult.ok ⟨[("a", ⟨"a", "p", "q", "r"⟩), ("b", ⟨"b", "p", "q", "r"⟩),
          ("c", ⟨"c", "p", "q", "r"⟩)]⟩ ∧
      (1 : Nat) < 2 ^ 63 ∧
      (SourceChembl.mk [("a", ⟨"a", "p", "q", "r"⟩), ("b", ⟨"b", "p", "q", "r"⟩),
        ("c", ⟨"c", "p", "q", "r"⟩)]).len ≤ 2 * 1 + 1) ∧
    ∃ res, (SourceChembl.mk [("a", ⟨"a", "p", "q", "r"⟩), ("b", ⟨"b", "p", "q", "r"⟩),
        ("c", ⟨"c", "p", "q", "r"⟩)]).choices 1 (fun i => i) = some res ∧
      res.length = min 1 (SourceChembl.mk [("a", ⟨"a", "p", "q", "r"⟩),
        ("b", ⟨"b", "p", "q", "r"⟩), ("c", ⟨"c", "p", "q", "r"⟩)]).len :=
  ⟨⟨by decide, by decide, by decide⟩,
    s2p_C9_small_store_deterministic ⟨[]⟩
      ⟨[("a", ⟨"a", "p", "q", "r"⟩), ("b", ⟨"b", "p", "q", "r"⟩),
        ("c", ⟨"c", "p", "q", "r"⟩)]⟩
      ["a\tp\tq\tr", "b\tp\tq\tr", "c\tp\tq\tr"] (by decide) 1 (fun i => i) (by decide)
      (by decide)⟩

/-- C10: on an empty store, `choices` returns the empty sequence for every
size and every random source, and does not fail: the per-record draw over
the empty range `[0, 0)` is never evaluated because no index is traversed. -/
theorem s2p_C10_choices_empty (sc : SourceChembl) (hsc : sc.len = 0) (size : Nat)
    (rng : Nat → Nat) : sc.choices size rng = some [] := by
  have hdata : sc.data = [] := List.length_eq_zero.1 hsc
  unfold SourceChembl.choices
  rw [hsc, hdata]
  simp [mkMarks]

theorem s2p_C10_witness :
    (SourceChembl.mk []).len = 0 ∧
    (SourceChembl.mk []).choices 5 (fun _ => 0) = some [] :=
  ⟨rfl, s2p_C10_choices_empty ⟨[]⟩ rfl 5 (fun _ => 0)⟩
